import Mathlib

/-!
Shallow embedding of `src/matrix.py`: a dense 2-D matrix stored row-major
in a flat list, with arithmetic operators and a recursive cofactor
determinant.  Python `ValueError` / `IndexError` exceptions are modelled
with `Except MErr`; the silent `None` fall-through of `__mul__` is
modelled by a dedicated result type.  `list.pop(i)` is modelled by
`List.eraseIdx`, which agrees with Python for every in-range index —
the only pops the library performs on matrices satisfying its
documented length invariant.
-/

namespace PyMatrix

/-- Error kinds raised by the Python code: `ValueError` for shape
problems (split into the two documented shape errors) and `IndexError`
for out-of-range list access. -/
inductive MErr where
  | DimensionMismatch
  | NotSquare
  | IndexOutOfRange
deriving DecidableEq

/-- The matrix record: `self.rows`, `self.cols` and the flat row-major
data list `self.mdata`. -/
structure Matrix where
  rows : Nat
  cols : Nat
  mdata : List Int
deriving DecidableEq

/-- The documented invariant: the flat list holds `rows * cols` elements. -/
def Mwf (m : Matrix) : Prop := m.mdata.length = m.rows * m.cols

instance (m : Matrix) : Decidable (Mwf m) := by unfold Mwf; infer_instance

/-- `Matrix.__init__`: accepts the data iff `rows * cols == len(mdata)`,
otherwise raises `ValueError` (a shape mismatch). -/
def construct (rows cols : Nat) (mdata : List Int) : Except MErr Matrix :=
  if rows * cols = mdata.length then Except.ok ⟨rows, cols, mdata⟩
  else Except.error MErr.DimensionMismatch

/-- `__eq__`: compares only the flat data lists. -/
def meq (a b : Matrix) : Bool := a.mdata == b.mdata

/-- `__ne__`: `not self.mdata == m2.mdata`. -/
def mne (a b : Matrix) : Bool := !(a.mdata == b.mdata)

/-- `dimensions`: the `(rows, cols)` pair. -/
def dimensions (m : Matrix) : Nat × Nat := (m.rows, m.cols)

/-- `is_square`: `rows == cols`. -/
def is_square (m : Matrix) : Bool := m.rows == m.cols

/-- `get_index`: flat row-major index `row * cols + col`. -/
def get_index (m : Matrix) (row col : Nat) : Nat := row * m.cols + col

/-- `get_element`: `self.mdata[self.get_index(row, col)]`, with Python's
`IndexError` made explicit. -/
def get_element (m : Matrix) (row col : Nat) : Except MErr Int :=
  match m.mdata.get? (get_index m row col) with
  | some x => Except.ok x
  | none => Except.error MErr.IndexOutOfRange

/-- Value-level reading of an (in-range) element; used to state theorems
about runs in which no `IndexError` occurs. -/
def get_elementD (m : Matrix) (row col : Nat) : Int :=
  m.mdata.getD (get_index m row col) 0

/-- Direct `self.mdata[i]` list access, used by the determinant base cases. -/
def data_at (m : Matrix) (i : Nat) : Except MErr Int :=
  match m.mdata.get? i with
  | some x => Except.ok x
  | none => Except.error MErr.IndexOutOfRange

/-- `__add__`: elementwise sum after the dimension guard; the result is
built through the constructor, like `Matrix(...)` in the source. -/
def madd (a b : Matrix) : Except MErr Matrix :=
  if dimensions a = dimensions b then
    construct a.rows a.cols (List.zipWith (fun i j => i + j) a.mdata b.mdata)
  else Except.error MErr.DimensionMismatch

/-- `__sub__`: elementwise difference after the dimension guard. -/
def msub (a b : Matrix) : Except MErr Matrix :=
  if dimensions a = dimensions b then
    construct a.rows a.cols (List.zipWith (fun i j => i - j) a.mdata b.mdata)
  else Except.error MErr.DimensionMismatch

/-- `__pow__`: elementwise product after the dimension guard. -/
def mpow (a b : Matrix) : Except MErr Matrix :=
  if dimensions a = dimensions b then
    construct a.rows a.cols (List.zipWith (fun i j => i * j) a.mdata b.mdata)
  else Except.error MErr.DimensionMismatch

/-- The dynamic type of `__mul__`'s right operand: an `int | float`
scalar, a `Matrix`, or any other Python object. -/
inductive Factor where
  | scalar (x : Int)
  | matrix (m : Matrix)
  | other
deriving DecidableEq

/-- The three possible outcomes of `__mul__`: a matrix, a raised
exception, or the silent `None` fall-through. -/
inductive MulOut where
  | mat (m : Matrix)
  | err (e : MErr)
  | nothing
deriving DecidableEq

/-- Whether `__mul__` produced a matrix. -/
def MulOut.isMat : MulOut → Bool
  | MulOut.mat _ => true
  | _ => false

/-- Inner accumulation of `__mul__`'s matrix-matrix loop.  Note that
both factors read `self` (the left operand `a`), exactly as in the
source: `self.get_element(i, k) * self.get_element(k, j)`. -/
def mulEntry (a : Matrix) (i j : Nat) : Except MErr Int :=
  List.foldlM (fun s k => do
      let x ← get_element a i k
      let y ← get_element a k j
      Except.ok (s + x * y))
    (0 : Int) (List.range a.cols)

/-- The two outer loops of `__mul__`'s matrix branch, appending one
entry per `(i, j)` pair in row-major order. -/
def mulData (a : Matrix) (bcols : Nat) : Except MErr (List Int) :=
  List.foldlM (fun res i =>
      List.foldlM (fun res j => do
          let s ← mulEntry a i j
          Except.ok (res ++ [s]))
        res (List.range bcols))
    [] (List.range a.rows)

/-- `__mul__`: scalar branch, matrix branch (with the shape guard), and
the silent `None` fall-through for any other operand. -/
def mul (a : Matrix) (fact : Factor) : MulOut :=
  match fact with
  | Factor.scalar x =>
    match construct a.rows a.cols (a.mdata.map (fun i => i * x)) with
    | Except.ok m => MulOut.mat m
    | Except.error e => MulOut.err e
  | Factor.matrix b =>
    if a.cols = b.rows then
      match mulData a b.cols with
      | Except.ok res =>
        match construct a.rows b.cols res with
        | Except.ok m => MulOut.mat m
        | Except.error e => MulOut.err e
      | Except.error e => MulOut.err e
    else MulOut.err MErr.DimensionMismatch
  | Factor.other => MulOut.nothing

/-- The descending pop loop of `remove_column`: pops flat index
`r * cols + index` for `r = rows-1, ..., 0`. -/
def removeColLoop (cols index : Nat) : Nat → List Int → List Int
  | 0, d => d
  | r+1, d => removeColLoop cols index r (d.eraseIdx (r * cols + index))

/-- The descending pop loop of `remove_row`: pops flat index
`index * cols + c` for `c = cols-1, ..., 0`. -/
def removeRowLoop (cols index : Nat) : Nat → List Int → List Int
  | 0, d => d
  | c+1, d => removeRowLoop cols index c (d.eraseIdx (index * cols + c))

/-- `remove_column`: pops one element per row (descending), then
decrements `cols`. -/
def remove_column (m : Matrix) (index : Nat) : Matrix :=
  ⟨m.rows, m.cols - 1, removeColLoop m.cols index m.rows m.mdata⟩

/-- `remove_row`: pops the row's `cols` elements (descending), then
decrements `rows`. -/
def remove_row (m : Matrix) (index : Nat) : Matrix :=
  ⟨m.rows - 1, m.cols, removeRowLoop m.cols index m.cols m.mdata⟩

/-- `copy_matrix`: a fresh matrix with the same fields (`list(...)`
copies the data; the aliasing consequences live in the store model
below). -/
def copy_matrix (m : Matrix) : Matrix := ⟨m.rows, m.cols, m.mdata⟩

/-- `get_sub_matrix`: copy, drop row 0, drop the given column. -/
def get_sub_matrix (m : Matrix) (column : Nat) : Matrix :=
  remove_column (remove_row (copy_matrix m) 0) column

/-- `determinant`, written with an explicit recursion-depth argument so
that the recursion is structural.  The code recurses on submatrices
whose row count drops by exactly one, so the depth is always
instantiated with `m.rows` (see `determinant`); depth `0` therefore
means a matrix with `rows = 0`, for which the Python `while` loop body
never runs and the accumulator `0` is returned (after the square
check).  Branch order, read order and the sign/sum updates follow the
source line by line. -/
def detGo : Nat → Matrix → Except MErr Int
  | 0, m => if is_square m then Except.ok 0 else Except.error MErr.NotSquare
  | fuel+1, m =>
    if is_square m then
      if m.rows = 1 then data_at m 0
      else if m.rows = 2 then do
        let a ← data_at m 0
        let d ← data_at m 3
        let b ← data_at m 1
        let c ← data_at m 2
        Except.ok (a * d - b * c)
      else do
        let p ← List.foldlM (fun (p : Int × Int) col => do
            let det ← detGo fuel (get_sub_matrix m col)
            let el ← get_element m 0 col
            Except.ok (p.1 + el * det * p.2, p.2 * (-1)))
          ((0 : Int), (1 : Int)) (List.range m.cols)
        Except.ok p.1
    else Except.error MErr.NotSquare

/-- `determinant`: run the recursion at its actual depth `m.rows`. -/
def determinant (m : Matrix) : Except MErr Int := detGo m.rows m

/-- The value computed by a successful determinant run (`0` as a dummy
for failing runs); used to state the cofactor-expansion theorem. -/
def detVal (m : Matrix) : Int :=
  match determinant m with
  | Except.ok v => v
  | Except.error _ => 0

/-- `random_matrix`, with the `randint` draws supplied by an oracle `g`
giving the value of the i-th draw. -/
def random_matrix (g : Nat → Int) (rows cols : Nat) : Matrix :=
  ⟨rows, cols, (List.range (rows * cols)).map g⟩

/-- One row of the n×n identity matrix. -/
def idRow (n r : Nat) : List Int := (List.range n).map (fun c => if r = c then 1 else 0)

/-- Flat data of the n×n identity matrix, as the join of its rows. -/
def idData (n : Nat) : List Int := ((List.range n).map (idRow n)).flatten

/-- The n×n identity matrix: ones on the diagonal, zeros elsewhere. -/
def idM (n : Nat) : Matrix := ⟨n, n, idData n⟩

/-- Heap of Python list objects, for the aliasing claims: in this model
a matrix object holds an index (`ref`) into the store instead of the
list itself. -/
abbrev Store := List (List Int)

/-- A matrix object in the store model. -/
structure MRef where
  rows : Nat
  cols : Nat
  ref : Nat
deriving DecidableEq

/-- Dereference a matrix object's backing list. -/
def readData (s : Store) (r : MRef) : List Int := s.getD r.ref []

/-- `copy_matrix` in the store model: `list(self.mdata)` allocates a
fresh cell holding a copy of the data. -/
def copyS (s : Store) (r : MRef) : MRef × Store :=
  (⟨r.rows, r.cols, s.length⟩, s ++ [readData s r])

/-- `remove_row` in the store model: mutates the referenced cell in
place and decrements the object's `rows`. -/
def remove_rowS (s : Store) (r : MRef) (i : Nat) : MRef × Store :=
  (⟨r.rows - 1, r.cols, r.ref⟩, s.set r.ref (removeRowLoop r.cols i r.cols (readData s r)))

/-- `remove_column` in the store model. -/
def remove_columnS (s : Store) (r : MRef) (i : Nat) : MRef × Store :=
  (⟨r.rows, r.cols - 1, r.ref⟩, s.set r.ref (removeColLoop r.cols i r.rows (readData s r)))

/-- `self.mdata[i] = v` in the store model: element mutation. -/
def set_elementS (s : Store) (r : MRef) (i : Nat) (v : Int) : Store :=
  s.set r.ref ((readData s r).set i v)

/-! ### Shape lemmas for the pop loops -/

theorem removeRowLoop_length (cols index : Nat) :
    ∀ (c : Nat) (d : List Int), index * cols + c ≤ d.length →
      (removeRowLoop cols index c d).length = d.length - c := by
  intro c
  induction c with
  | zero => intro d _; rfl
  | succ c ih =>
    intro d h
    have hlt : index * cols + c < d.length := by omega
    have hlen := List.length_eraseIdx_of_lt hlt
    simp only [removeRowLoop]
    rw [ih (d.eraseIdx (index * cols + c)) (by rw [hlen]; omega), hlen]
    omega

theorem removeColLoop_length (cols index : Nat) (hidx : index < cols) :
    ∀ (r : Nat) (d : List Int), r * cols ≤ d.length →
      (removeColLoop cols index r d).length = d.length - r := by
  intro r
  induction r with
  | zero => intro d _; rfl
  | succ r ih =>
    intro d h
    rw [Nat.succ_mul] at h
    have hlt : r * cols + index < d.length := by omega
    have hlen := List.length_eraseIdx_of_lt hlt
    simp only [removeColLoop]
    rw [ih (d.eraseIdx (r * cols + index)) (by rw [hlen]; omega), hlen]
    omega

theorem remove_row_shape (m : Matrix) (i : Nat) (hwf : Mwf m) (hi : i < m.rows) :
    Mwf (remove_row m i) ∧ (remove_row m i).mdata.length = m.mdata.length - m.cols ∧
      (remove_row m i).rows = m.rows - 1 ∧ (remove_row m i).cols = m.cols := by
  have h1 : i * m.cols + m.cols ≤ m.mdata.length := by
    rw [hwf]
    calc i * m.cols + m.cols = (i + 1) * m.cols := by ring
    _ ≤ m.rows * m.cols := Nat.mul_le_mul_right _ (by omega)
  have hlen := removeRowLoop_length m.cols i m.cols m.mdata h1
  refine ⟨?_, hlen, rfl, rfl⟩
  show (removeRowLoop m.cols i m.cols m.mdata).length = (m.rows - 1) * m.cols
  rw [hlen, hwf]
  cases hr : m.rows with
  | zero => omega
  | succ r => rw [Nat.succ_sub_one, Nat.succ_mul]; omega

theorem remove_column_shape (m : Matrix) (i : Nat) (hwf : Mwf m) (hi : i < m.cols) :
    Mwf (remove_column m i) ∧ (remove_column m i).mdata.length = m.mdata.length - m.rows ∧
      (remove_column m i).rows = m.rows ∧ (remove_column m i).cols = m.cols - 1 := by
  have hlen := removeColLoop_length m.cols i hi m.rows m.mdata (by rw [hwf])
  refine ⟨?_, hlen, rfl, rfl⟩
  show (removeColLoop m.cols i m.rows m.mdata).length = m.rows * (m.cols - 1)
  rw [hlen, hwf]
  cases hc : m.cols with
  | zero => omega
  | succ c => rw [Nat.succ_sub_one, Nat.mul_succ]; omega

theorem construct_wf (rows cols : Nat) (d : List Int) (m : Matrix)
    (h : construct rows cols d = Except.ok m) : Mwf m := by
  unfold construct at h
  split at h
  · cases h
    exact (by assumption : rows * cols = d.length).symm
  · cases h

theorem get_sub_matrix_shape (m : Matrix) (col : Nat) (hwf : Mwf m)
    (hr : 0 < m.rows) (hc : col < m.cols) :
    Mwf (get_sub_matrix m col) ∧ (get_sub_matrix m col).rows = m.rows - 1 ∧
      (get_sub_matrix m col).cols = m.cols - 1 := by
  have h1 := remove_row_shape (copy_matrix m) 0 hwf hr
  have h2 := remove_column_shape (remove_row (copy_matrix m) 0) col h1.1 hc
  exact ⟨h2.1, h2.2.2.1, h2.2.2.2⟩

/-- C4: the invariant `length(data) == rows * cols` holds after
construction and is preserved by every matrix-producing operation; the
in-place removals delete exactly `cols` (resp. `rows`) elements and
decrement `rows` (resp. `cols`). -/
theorem c4_invariant_preservation :
    (∀ (rows cols : Nat) (d : List Int) (m : Matrix),
        construct rows cols d = Except.ok m → Mwf m) ∧
    (∀ (m : Matrix) (i : Nat), Mwf m → i < m.rows →
        Mwf (remove_row m i) ∧ (remove_row m i).mdata.length = m.mdata.length - m.cols ∧
          (remove_row m i).rows = m.rows - 1 ∧ (remove_row m i).cols = m.cols) ∧
    (∀ (m : Matrix) (i : Nat), Mwf m → i < m.cols →
        Mwf (remove_column m i) ∧ (remove_column m i).mdata.length = m.mdata.length - m.rows ∧
          (remove_column m i).rows = m.rows ∧ (remove_column m i).cols = m.cols - 1) ∧
    (∀ (a b m : Matrix), madd a b = Except.ok m → Mwf m) ∧
    (∀ (a b m : Matrix), msub a b = Except.ok m → Mwf m) ∧
    (∀ (a b m : Matrix), mpow a b = Except.ok m → Mwf m) ∧
    (∀ (a : Matrix) (f : Factor) (m : Matrix), mul a f = MulOut.mat m → Mwf m) ∧
    (∀ m : Matrix, Mwf m → Mwf (copy_matrix m)) ∧
    (∀ (m : Matrix) (col : Nat), Mwf m → 0 < m.rows → col < m.cols →
        Mwf (get_sub_matrix m col)) ∧
    (∀ (g : Nat → Int) (rows cols : Nat), Mwf (random_matrix g rows cols)) := by
  refine ⟨construct_wf, ?_, ?_, ?_, ?_, ?_, ?_, ?_, ?_, ?_⟩
  · exact fun m i hwf hi => remove_row_shape m i hwf hi
  · exact fun m i hwf hi => remove_column_shape m i hwf hi
  · intro a b m h
    unfold madd at h
    split at h
    · exact construct_wf _ _ _ _ h
    · cases h
  · intro a b m h
    unfold msub at h
    split at h
    · exact construct_wf _ _ _ _ h
    · cases h
  · intro a b m h
    unfold mpow at h
    split at h
    · exact construct_wf _ _ _ _ h
    · cases h
  · intro a f m h
    unfold mul at h
    match f with
    | Factor.scalar x =>
      simp only at h
      split at h
      · cases h; exact construct_wf _ _ _ _ (by assumption)
      · cases h
    | Factor.matrix b =>
      simp only at h
      split at h
      · split at h
        · split at h
          · cases h; exact construct_wf _ _ _ _ (by assumption)
          · cases h
        · cases h
      · cases h
    | Factor.other => cases h
  · exact fun m hwf => hwf
  · exact fun m col hwf hr hc => (get_sub_matrix_shape m col hwf hr hc).1
  · intro g rows cols
    show ((List.range (rows * cols)).map g).length = rows * cols
    rw [List.length_map, List.length_range]

/-- Closed instance of `c4_invariant_preservation` (removal of row 0
from a concrete well-formed 2×2 matrix). -/
theorem c4_invariant_preservation_witness :
    Mwf (remove_row (Matrix.mk 2 2 [1, 2, 3, 4]) 0) ∧
      (remove_row (Matrix.mk 2 2 [1, 2, 3, 4]) 0).mdata.length =
        (Matrix.mk 2 2 [1, 2, 3, 4]).mdata.length - (Matrix.mk 2 2 [1, 2, 3, 4]).cols ∧
      (remove_row (Matrix.mk 2 2 [1, 2, 3, 4]) 0).rows = (Matrix.mk 2 2 [1, 2, 3, 4]).rows - 1 ∧
      (remove_row (Matrix.mk 2 2 [1, 2, 3, 4]) 0).cols = (Matrix.mk 2 2 [1, 2, 3, 4]).cols :=
  c4_invariant_preservation.2.1 (Matrix.mk 2 2 [1, 2, 3, 4]) 0 (by decide) (by decide)

/-- C5: `__eq__` is element-wise equality of the backing lists (shape
is ignored, so equal data with different shapes compares equal), and
`__ne__` is its negation. -/
theorem c5_eq_compares_data_only :
    (∀ a b : Matrix, meq a b = true ↔ a.mdata = b.mdata) ∧
    (∀ a b : Matrix, mne a b = !(meq a b)) ∧
    meq (Matrix.mk 2 3 [1, 2, 3, 4, 5, 6]) (Matrix.mk 3 2 [1, 2, 3, 4, 5, 6]) = true ∧
    decide (dimensions (Matrix.mk 2 3 [1, 2, 3, 4, 5, 6]) =
      dimensions (Matrix.mk 3 2 [1, 2, 3, 4, 5, 6])) = false := by
  refine ⟨?_, ?_, by decide, by decide⟩
  · intro a b
    exact beq_iff_eq
  · intro a b
    rfl

/-- C6: construction fails with the shape error exactly when the data
length differs from `rows * cols`, and otherwise stores the three
fields unchanged. -/
theorem c6_construct_spec (rows cols : Nat) (d : List Int) :
    (construct rows cols d = Except.error MErr.DimensionMismatch ↔ d.length ≠ rows * cols) ∧
    (∀ m, construct rows cols d = Except.ok m →
      m.rows = rows ∧ m.cols = cols ∧ m.mdata = d) ∧
    (d.length = rows * cols → construct rows cols d = Except.ok (Matrix.mk rows cols d)) := by
  refine ⟨?_, ?_, ?_⟩
  · unfold construct
    split
    · simp only [reduceCtorEq, false_iff, ne_eq, not_not]
      omega
    · simp only [true_iff, ne_eq]
      omega
  · intro m h
    unfold construct at h
    split at h
    · cases h; exact ⟨rfl, rfl, rfl⟩
    · cases h
  · intro h
    unfold construct
    rw [if_pos h.symm]

/-- Closed instance of `c6_construct_spec` at the spec's own examples. -/
theorem c6_construct_spec_witness :
    (construct 2 3 [1, 2, 3] = Except.error MErr.DimensionMismatch ↔
      ([1, 2, 3] : List Int).length ≠ 2 * 3) ∧
    construct 2 3 [1, 2, 3, 4, 5, 6] = Except.ok (Matrix.mk 2 3 [1, 2, 3, 4, 5, 6]) :=
  ⟨(c6_construct_spec 2 3 [1, 2, 3]).1,
   (c6_construct_spec 2 3 [1, 2, 3, 4, 5, 6]).2.2 (by decide)⟩

/-- C8: removing row 0 from the 3×3 matrix `[1..9]` gives the 2×3
matrix `[4,5,6,7,8,9]`, and removing column 1 from that gives the 2×2
matrix `[4,6,7,9]`. -/
theorem c8_concrete_removals :
    remove_row (Matrix.mk 3 3 [1, 2, 3, 4, 5, 6, 7, 8, 9]) 0 =
      Matrix.mk 2 3 [4, 5, 6, 7, 8, 9] ∧
    remove_column (remove_row (Matrix.mk 3 3 [1, 2, 3, 4, 5, 6, 7, 8, 9]) 0) 1 =
      Matrix.mk 2 2 [4, 6, 7, 9] :=
  ⟨rfl, rfl⟩

/-- C10: when the right operand of `*` is neither a scalar nor a
matrix, `__mul__` falls through both `isinstance` checks and silently
returns `None`: no matrix, no raised error. -/
theorem c10_mul_other_silently_returns_nothing (a : Matrix) :
    mul a Factor.other = MulOut.nothing ∧
      MulOut.isMat (mul a Factor.other) = false :=
  ⟨rfl, rfl⟩

/-! ### The matrix-multiplication loop -/

theorem get_element_ok (m : Matrix) (r c : Nat) (h : get_index m r c < m.mdata.length) :
    get_element m r c = Except.ok (get_elementD m r c) := by
  unfold get_element get_elementD
  rw [List.get?_eq_getElem?, List.getElem?_eq_getElem h]
  rw [List.getD_eq_getElem?_getD, List.getElem?_eq_getElem h]
  rfl

theorem mulEntry_fold (a : Matrix) (i j : Nat)
    (h1 : ∀ k, k < a.cols → get_index a i k < a.mdata.length)
    (h2 : ∀ k, k < a.cols → get_index a k j < a.mdata.length) :
    ∀ (l : List Nat) (s : Int), (∀ k ∈ l, k < a.cols) →
      List.foldlM (fun s k => do
          let x ← get_element a i k
          let y ← get_element a k j
          Except.ok (s + x * y)) s l
        = Except.ok (s + (l.map (fun k => get_elementD a i k * get_elementD a k j)).sum) := by
  intro l
  induction l with
  | nil => intro s _; simp only [List.foldlM_nil, List.map_nil, List.sum_nil, add_zero]; rfl
  | cons k l ih =>
    intro s hmem
    have hk : k < a.cols := hmem k (by simp)
    rw [List.foldlM_cons, get_element_ok a i k (h1 k hk), get_element_ok a k j (h2 k hk)]
    show List.foldlM _ (s + get_elementD a i k * get_elementD a k j) l = _
    rw [ih _ (fun k' hk' => hmem k' (List.mem_cons_of_mem _ hk'))]
    rw [List.map_cons, List.sum_cons]
    ring_nf

theorem mulEntry_ok (a : Matrix) (i j : Nat)
    (h1 : ∀ k, k < a.cols → get_index a i k < a.mdata.length)
    (h2 : ∀ k, k < a.cols → get_index a k j < a.mdata.length) :
    mulEntry a i j = Except.ok
      (((List.range a.cols).map (fun k => get_elementD a i k * get_elementD a k j)).sum) := by
  have := mulEntry_fold a i j h1 h2 (List.range a.cols) 0 (by intro k hk; simpa using hk)
  unfold mulEntry
  rw [this, zero_add]

theorem mulData_inner_fold (a : Matrix) (bcols : Nat) (i : Nat) (ent : Nat → Nat → Int)
    (hentry : ∀ j, j < bcols → mulEntry a i j = Except.ok (ent i j)) :
    ∀ (l : List Nat) (res : List Int), (∀ j ∈ l, j < bcols) →
      List.foldlM (fun res j => do
          let s ← mulEntry a i j
          Except.ok (res ++ [s])) res l
        = Except.ok (res ++ l.map (ent i)) := by
  intro l
  induction l with
  | nil => intro res _; simp only [List.foldlM_nil, List.map_nil, List.append_nil]; rfl
  | cons j l ih =>
    intro res hmem
    have hj : j < bcols := hmem j (by simp)
    rw [List.foldlM_cons, hentry j hj]
    show List.foldlM _ (res ++ [ent i j]) l = _
    rw [ih _ (fun j' hj' => hmem j' (List.mem_cons_of_mem _ hj'))]
    simp

theorem mulData_ok (a : Matrix) (bcols : Nat) (ent : Nat → Nat → Int)
    (hentry : ∀ i j, i < a.rows → j < bcols → mulEntry a i j = Except.ok (ent i j)) :
    mulData a bcols = Except.ok
      (((List.range a.rows).map (fun i => (List.range bcols).map (ent i))).flatten) := by
  unfold mulData
  have main : ∀ (l : List Nat) (res : List Int), (∀ i ∈ l, i < a.rows) →
      List.foldlM (fun res i =>
          List.foldlM (fun res j => do
              let s ← mulEntry a i j
              Except.ok (res ++ [s]))
            res (List.range bcols)) res l
        = Except.ok (res ++ (l.map (fun i => (List.range bcols).map (ent i))).flatten) := by
    intro l
    induction l with
    | nil =>
      intro res _
      simp only [List.foldlM_nil, List.map_nil, List.flatten_nil, List.append_nil]
      rfl
    | cons i l ih =>
      intro res hmem
      have hi : i < a.rows := hmem i (by simp)
      rw [List.foldlM_cons]
      rw [mulData_inner_fold a bcols i ent (fun j hj => hentry i j hi hj) (List.range bcols) res
        (by intro j hj; simpa using hj)]
      show List.foldlM _ (res ++ (List.range bcols).map (ent i)) l = _
      rw [ih _ (fun i' hi' => hmem i' (List.mem_cons_of_mem _ hi'))]
      simp
  have := main (List.range a.rows) [] (by intro i hi; simpa using hi)
  rw [this]
  simp

/-- Indexing into the flattening of equally-sized chunks. -/
theorem flatten_chunk_get (chunks : List (List Int)) (w : Nat)
    (hw : ∀ ch ∈ chunks, ch.length = w) :
    ∀ (i j : Nat), i < chunks.length → j < w →
      chunks.flatten.get? (i * w + j) = (chunks.getD i []).get? j := by
  induction chunks with
  | nil => intro i j hi _; cases hi
  | cons ch rest ih =>
    intro i j hi hj
    cases i with
    | zero =>
      have hch : ch.length = w := hw ch (by simp)
      simp only [List.flatten_cons, Nat.zero_mul, Nat.zero_add, List.get?_eq_getElem?]
      rw [List.getElem?_append_left (by omega)]
      rfl
    | succ i =>
      have hch : ch.length = w := hw ch (by simp)
      simp only [List.flatten_cons, List.get?_eq_getElem?]
      have harith : Nat.succ i * w + j = ch.length + (i * w + j) := by
        rw [hch, Nat.succ_mul]; ring
      rw [harith, List.getElem?_append_right (by omega), Nat.add_sub_cancel_left]
      have := ih (fun ch' h' => hw ch' (List.mem_cons_of_mem _ h')) i j (by simpa using hi) hj
      rw [List.get?_eq_getElem?] at this
      rw [this]
      simp [List.getD_cons_succ]

/-- C2 (amended): whenever the shape guard `a.cols == b.rows` holds
*and* every flat index `k * a.cols + j` read by the buggy second
factor stays inside `a`'s data (e.g. `a` square with `b.cols ≤
a.cols`), `__mul__` returns an `a.rows × b.cols` matrix whose `(i,j)`
entry is `Σ_k a(i,k) * a(k,j)` — both factors from the left operand —
and the result never depends on `b`'s elements.  (The original,
unconditional claim is refuted by the concrete counterexample below,
where a read goes out of range and `IndexError` is raised.) -/
theorem c2_mul_reads_left_operand_twice (a b : Matrix) (hwf : Mwf a)
    (hdim : a.cols = b.rows)
    (hin : ∀ k j, k < a.cols → j < b.cols → k * a.cols + j < a.mdata.length) :
    ∃ d : List Int,
      mul a (Factor.matrix b) = MulOut.mat (Matrix.mk a.rows b.cols d) ∧
      d.length = a.rows * b.cols ∧
      (∀ i j, i < a.rows → j < b.cols →
        d.get? (i * b.cols + j) = some
          (((List.range a.cols).map
              (fun k => get_elementD a i k * get_elementD a k j)).sum)) ∧
      (∀ b2 : Matrix, b2.rows = b.rows → b2.cols = b.cols →
        mul a (Factor.matrix b2) = mul a (Factor.matrix b)) := by
  have hfirst : ∀ i k, i < a.rows → k < a.cols → get_index a i k < a.mdata.length := by
    intro i k hi hk
    unfold get_index
    rw [hwf]
    calc i * a.cols + k < i * a.cols + a.cols := by omega
    _ = (i + 1) * a.cols := by ring
    _ ≤ a.rows * a.cols := Nat.mul_le_mul_right _ (by omega)
  have hsecond : ∀ k j, k < a.cols → j < b.cols → get_index a k j < a.mdata.length :=
    fun k j hk hj => hin k j hk hj
  have hent : ∀ i j, i < a.rows → j < b.cols → mulEntry a i j = Except.ok
      (((List.range a.cols).map (fun k => get_elementD a i k * get_elementD a k j)).sum) := by
    intro i j hi hj
    exact mulEntry_ok a i j (fun k hk => hfirst i k hi hk) (fun k hk => hsecond k j hk hj)
  have hdata := mulData_ok a b.cols
    (fun i j => ((List.range a.cols).map (fun k => get_elementD a i k * get_elementD a k j)).sum)
    hent
  set d := ((List.range a.rows).map
    (fun i => (List.range b.cols).map
      (fun j => ((List.range a.cols).map
        (fun k => get_elementD a i k * get_elementD a k j)).sum))).flatten with hd
  have hdlen : d.length = a.rows * b.cols := by
    rw [hd, List.length_flatten, List.map_map]
    have : ((List.range a.rows).map
        (List.length ∘ fun i => (List.range b.cols).map
          (fun j => ((List.range a.cols).map
            (fun k => get_elementD a i k * get_elementD a k j)).sum)))
        = (List.range a.rows).map (fun _ => b.cols) := by
      apply List.map_congr_left
      intro i _
      simp
    rw [this, List.map_const', List.sum_replicate, List.length_range, smul_eq_mul]
  refine ⟨d, ?_, hdlen, ?_, ?_⟩
  · have hcon : construct a.rows b.cols d = Except.ok (Matrix.mk a.rows b.cols d) := by
      unfold construct
      rw [if_pos hdlen.symm]
    have hstep : mul a (Factor.matrix b) =
        match construct a.rows b.cols d with
        | Except.ok m => MulOut.mat m
        | Except.error e => MulOut.err e := by
      simp only [mul]
      rw [if_pos hdim, hdata]
    rw [hstep, hcon]
  · intro i j hi hj
    rw [hd]
    have hchunks : ∀ ch ∈ (List.range a.rows).map
        (fun i => (List.range b.cols).map
          (fun j => ((List.range a.cols).map
            (fun k => get_elementD a i k * get_elementD a k j)).sum)), ch.length = b.cols := by
      intro ch hch
      rcases List.mem_map.1 hch with ⟨i', _, rfl⟩
      simp
    have := flatten_chunk_get _ b.cols hchunks i j (by simpa using hi) hj
    rw [this]
    have hgetD : ((List.range a.rows).map
        (fun i => (List.range b.cols).map
          (fun j => ((List.range a.cols).map
            (fun k => get_elementD a i k * get_elementD a k j)).sum))).getD i []
        = (List.range b.cols).map
          (fun j => ((List.range a.cols).map
            (fun k => get_elementD a i k * get_elementD a k j)).sum) := by
      rw [List.getD_eq_getElem?_getD, List.getElem?_map, List.getElem?_range hi]
      rfl
    rw [hgetD, List.get?_eq_getElem?, List.getElem?_map, List.getElem?_range hj]
    rfl
  · intro b2 hr hc
    simp only [mul]
    rw [hr, hc]

/-- C2 (counterexample): a well-formed 2×3 matrix times a well-formed
3×2 matrix passes the shape guard, yet `__mul__` raises `IndexError`
instead of returning any matrix: the buggy factor
`self.get_element(k, j)` reads flat index `2*3+0 = 6` of a 6-element
list. -/
theorem c2_counterexample :
    (Matrix.mk 2 3 [1, 2, 3, 4, 5, 6]).cols = (Matrix.mk 3 2 [1, 2, 3, 4, 5, 6]).rows ∧
    Mwf (Matrix.mk 2 3 [1, 2, 3, 4, 5, 6]) ∧ Mwf (Matrix.mk 3 2 [1, 2, 3, 4, 5, 6]) ∧
    mul (Matrix.mk 2 3 [1, 2, 3, 4, 5, 6]) (Factor.matrix (Matrix.mk 3 2 [1, 2, 3, 4, 5, 6])) =
      MulOut.err MErr.IndexOutOfRange ∧
    MulOut.isMat (mul (Matrix.mk 2 3 [1, 2, 3, 4, 5, 6])
      (Factor.matrix (Matrix.mk 3 2 [1, 2, 3, 4, 5, 6]))) = false :=
  ⟨rfl, by decide, by decide, rfl, rfl⟩

/-- Closed instance of `c2_mul_reads_left_operand_twice` on a pair of
square 2×2 matrices. -/
theorem c2_mul_reads_left_operand_twice_witness :
    ∃ d : List Int,
      mul (Matrix.mk 2 2 [1, 0, 0, 1]) (Factor.matrix (Matrix.mk 2 2 [1, 2, 3, 4])) =
        MulOut.mat (Matrix.mk (Matrix.mk 2 2 [1, 0, 0, 1]).rows
          (Matrix.mk 2 2 [1, 2, 3, 4]).cols d) ∧
      d.length = (Matrix.mk 2 2 [1, 0, 0, 1]).rows * (Matrix.mk 2 2 [1, 2, 3, 4]).cols ∧
      (∀ i j, i < (Matrix.mk 2 2 [1, 0, 0, 1]).rows → j < (Matrix.mk 2 2 [1, 2, 3, 4]).cols →
        d.get? (i * (Matrix.mk 2 2 [1, 2, 3, 4]).cols + j) = some
          (((List.range (Matrix.mk 2 2 [1, 0, 0, 1]).cols).map
              (fun k => get_elementD (Matrix.mk 2 2 [1, 0, 0, 1]) i k *
                get_elementD (Matrix.mk 2 2 [1, 0, 0, 1]) k j)).sum)) ∧
      (∀ b2 : Matrix, b2.rows = (Matrix.mk 2 2 [1, 2, 3, 4]).rows →
        b2.cols = (Matrix.mk 2 2 [1, 2, 3, 4]).cols →
        mul (Matrix.mk 2 2 [1, 0, 0, 1]) (Factor.matrix b2) =
          mul (Matrix.mk 2 2 [1, 0, 0, 1]) (Factor.matrix (Matrix.mk 2 2 [1, 2, 3, 4]))) :=
  c2_mul_reads_left_operand_twice (Matrix.mk 2 2 [1, 0, 0, 1]) (Matrix.mk 2 2 [1, 2, 3, 4])
    (by decide) (by decide)
    (by
      intro k j hk hj
      have hk2 : k < 2 := hk
      have hj2 : j < 2 := hj
      show k * 2 + j < 4
      omega)

/-! ### The determinant recursion -/

theorem data_at_ok (m : Matrix) (i : Nat) (h : i < m.mdata.length) :
    data_at m i = Except.ok (m.mdata.getD i 0) := by
  unfold data_at
  rw [List.get?_eq_getElem?, List.getElem?_eq_getElem h, List.getD_eq_getElem?_getD,
    List.getElem?_eq_getElem h]
  rfl

theorem detVal_eq (m : Matrix) (v : Int) (h : determinant m = Except.ok v) :
    determinant m = Except.ok (detVal m) ∧ detVal m = v := by
  unfold detVal
  rw [h]
  exact ⟨rfl, rfl⟩

theorem is_square_true (m : Matrix) (h : m.rows = m.cols) : is_square m = true := by
  unfold is_square
  rw [h]
  simp

/-- One unfolding of `detGo` in the cofactor-expansion branch. -/
theorem detGo_succ_main (fuel : Nat) (m : Matrix) (hsqb : is_square m = true)
    (hr1 : m.rows ≠ 1) (hr2 : m.rows ≠ 2) :
    detGo (fuel+1) m = (do
      let p ← List.foldlM (fun (p : Int × Int) col => do
          let det ← detGo fuel (get_sub_matrix m col)
          let el ← get_element m 0 col
          Except.ok (p.1 + el * det * p.2, p.2 * (-1)))
        ((0 : Int), (1 : Int)) (List.range m.cols)
      Except.ok p.1) := by
  simp only [detGo]
  rw [if_pos hsqb, if_neg hr1, if_neg hr2]

/-- The value accumulated by the determinant's `while` loop, when every
submatrix determinant and every row-0 read succeeds: starting at
column `c` with accumulator `s` and sign `g`, the loop adds the signed
cofactor terms of columns `c, ..., cols-1`. -/
theorem det_fold (fuel : Nat) (m : Matrix) (e f : Nat → Int)
    (he : ∀ col, col < m.cols → get_element m 0 col = Except.ok (e col))
    (hf : ∀ col, col < m.cols → detGo fuel (get_sub_matrix m col) = Except.ok (f col)) :
    ∀ (k c : Nat) (s g : Int), c + k ≤ m.cols →
      List.foldlM (fun (p : Int × Int) col => do
          let det ← detGo fuel (get_sub_matrix m col)
          let el ← get_element m 0 col
          Except.ok (p.1 + el * det * p.2, p.2 * (-1)))
        (s, g) (List.range' c k)
      = Except.ok
          (s + ((List.range k).map (fun i => e (c + i) * f (c + i) * (g * (-1) ^ i))).sum,
            g * (-1) ^ k) := by
  intro k
  induction k with
  | zero =>
    intro c s g hck
    simp only [List.range'_zero, List.foldlM_nil, List.range_zero, List.map_nil, List.sum_nil,
      add_zero, pow_zero, mul_one]
    rfl
  | succ k ih =>
    intro c s g hck
    have hc : c < m.cols := by omega
    rw [List.range'_succ, List.foldlM_cons, hf c hc, he c hc]
    show List.foldlM _ (s + e c * f c * g, g * (-1)) (List.range' (c+1) k) = _
    rw [ih (c+1) (s + e c * f c * g) (g * (-1)) (by omega)]
    simp only [Except.ok.injEq, Prod.mk.injEq]
    refine ⟨?_, by ring⟩
    rw [List.range_succ_eq_map, List.map_cons, List.map_map, List.sum_cons]
    have hmap : ((List.range k).map
          ((fun i => e (c + i) * f (c + i) * (g * (-1) ^ i)) ∘ Nat.succ))
        = (List.range k).map
          (fun i => e (c + 1 + i) * f (c + 1 + i) * (g * (-1) * (-1) ^ i)) := by
      apply List.map_congr_left
      intro i _
      simp only [Function.comp]
      have h1 : c + Nat.succ i = c + 1 + i := by omega
      rw [h1, pow_succ]
      ring
    rw [hmap]
    simp only [Nat.add_zero, pow_zero, mul_one]
    ring

/-- Totality and shape of the determinant on well-formed square
matrices, by induction on the row count: it succeeds, returns the
single element for `rows = 1`, the closed 2×2 formula for `rows = 2`,
and the row-0 cofactor expansion otherwise. -/
theorem determinant_total_expand :
    ∀ (n : Nat) (m : Matrix), m.rows = n → Mwf m → m.rows = m.cols →
      determinant m = Except.ok (detVal m) ∧
      (m.rows = 1 → detVal m = m.mdata.getD 0 0) ∧
      (m.rows = 2 → detVal m = m.mdata.getD 0 0 * m.mdata.getD 3 0
        - m.mdata.getD 1 0 * m.mdata.getD 2 0) ∧
      (m.rows ≠ 1 → m.rows ≠ 2 →
        detVal m = ((List.range m.cols).map
          (fun col => get_elementD m 0 col * (-1) ^ col * detVal (get_sub_matrix m col))).sum) := by
  intro n
  induction n with
  | zero =>
    intro m hn hwf hsq
    have hsqb := is_square_true m hsq
    have hdet : determinant m = Except.ok 0 := by
      unfold determinant
      rw [hn]
      simp only [detGo]
      rw [if_pos hsqb]
    rcases detVal_eq m 0 hdet with ⟨h1, h2⟩
    refine ⟨h1, fun h => absurd h (by omega), fun h => absurd h (by omega), fun _ _ => ?_⟩
    have hc : m.cols = 0 := by omega
    rw [h2, hc]
    simp
  | succ n ih =>
    intro m hn hwf hsq
    have hsqb := is_square_true m hsq
    by_cases hr1 : m.rows = 1
    · have hc1 : m.cols = 1 := by omega
      have hlen : m.mdata.length = 1 := by rw [hwf, hr1, hc1]
      have hdet : determinant m = Except.ok (m.mdata.getD 0 0) := by
        unfold determinant
        rw [hn]
        simp only [detGo]
        rw [if_pos hsqb, if_pos hr1, data_at_ok m 0 (by omega)]
      rcases detVal_eq m _ hdet with ⟨h1, h2⟩
      exact ⟨h1, fun _ => h2, fun h => absurd h (by omega), fun h _ => absurd hr1 h⟩
    · by_cases hr2 : m.rows = 2
      · have hc2 : m.cols = 2 := by omega
        have hlen : m.mdata.length = 4 := by rw [hwf, hr2, hc2]
        have hdet : determinant m = Except.ok (m.mdata.getD 0 0 * m.mdata.getD 3 0
            - m.mdata.getD 1 0 * m.mdata.getD 2 0) := by
          unfold determinant
          rw [hn]
          simp only [detGo]
          rw [if_pos hsqb, if_neg hr1, if_pos hr2, data_at_ok m 0 (by omega),
            data_at_ok m 3 (by omega), data_at_ok m 1 (by omega), data_at_ok m 2 (by omega)]
          rfl
        rcases detVal_eq m _ hdet with ⟨h1, h2⟩
        exact ⟨h1, fun h => absurd h hr1, fun _ => h2, fun _ h => absurd hr2 h⟩
      · have hpos : 0 < m.rows := by omega
        have hcpos : m.cols ≤ m.rows * m.cols := Nat.le_mul_of_pos_left _ hpos
        have he : ∀ col, col < m.cols → get_element m 0 col
            = Except.ok (get_elementD m 0 col) := by
          intro col hcol
          apply get_element_ok
          unfold get_index
          rw [hwf]
          omega
        have hf : ∀ col, col < m.cols → detGo n (get_sub_matrix m col)
            = Except.ok (detVal (get_sub_matrix m col)) := by
          intro col hcol
          rcases get_sub_matrix_shape m col hwf hpos hcol with ⟨hwf', hrows', hcols'⟩
          have hn' : (get_sub_matrix m col).rows = n := by omega
          have hsq' : (get_sub_matrix m col).rows = (get_sub_matrix m col).cols := by omega
          have := (ih (get_sub_matrix m col) hn' hwf' hsq').1
          unfold determinant at this
          rw [hn'] at this
          exact this
        have hfold := det_fold n m (fun col => get_elementD m 0 col)
          (fun col => detVal (get_sub_matrix m col)) he hf m.cols 0 0 1 (by omega)
        have hdet : determinant m = Except.ok
            (0 + ((List.range m.cols).map
              (fun i => get_elementD m 0 (0 + i) * detVal (get_sub_matrix m (0 + i))
                * (1 * (-1) ^ i))).sum) := by
          unfold determinant
          rw [hn, detGo_succ_main n m hsqb hr1 hr2]
          conv_lhs => rw [List.range_eq_range']
          rw [hfold]
          rfl
        rcases detVal_eq m _ hdet with ⟨h1, h2⟩
        refine ⟨h1, fun h => absurd h hr1, fun h => absurd h hr2, fun _ _ => ?_⟩
        rw [h2, zero_add]
        have hmap : (List.range m.cols).map
            (fun i => get_elementD m 0 (0 + i) * detVal (get_sub_matrix m (0 + i))
              * (1 * (-1) ^ i))
            = (List.range m.cols).map
              (fun col => get_elementD m 0 col * (-1) ^ col * detVal (get_sub_matrix m col)) := by
          apply List.map_congr_left
          intro i _
          rw [Nat.zero_add]
          ring
        rw [hmap]

theorem determinant_not_square (m : Matrix) (h : is_square m = false) :
    determinant m = Except.error MErr.NotSquare := by
  unfold determinant
  cases hr : m.rows with
  | zero =>
    simp only [detGo]
    rw [if_neg (by simp [h])]
  | succ n =>
    simp only [detGo]
    rw [if_neg (by simp [h])]

/-- C1: on every well-formed matrix, `determinant` fails with the
NotSquare error iff the matrix is non-square; on square matrices it
succeeds, returning the single element for `rows = 1`, the closed
formula `data[0]*data[3] - data[1]*data[2]` for `rows = 2`, and
otherwise the cofactor expansion along row 0:
`Σ_col element(0,col) * (-1)^col * determinant(submatrix(col))`. -/
theorem c1_determinant_spec (m : Matrix) (hwf : Mwf m) :
    (is_square m = false → determinant m = Except.error MErr.NotSquare) ∧
    (is_square m = true →
      determinant m = Except.ok (detVal m) ∧
      (m.rows = 1 → detVal m = m.mdata.getD 0 0) ∧
      (m.rows = 2 → detVal m = m.mdata.getD 0 0 * m.mdata.getD 3 0
        - m.mdata.getD 1 0 * m.mdata.getD 2 0) ∧
      (m.rows ≠ 1 → m.rows ≠ 2 →
        detVal m = ((List.range m.cols).map
          (fun col => get_elementD m 0 col * (-1) ^ col
            * detVal (get_sub_matrix m col))).sum)) := by
  refine ⟨determinant_not_square m, fun hsq => ?_⟩
  have h : m.rows = m.cols := by
    unfold is_square at hsq
    simpa using hsq
  exact determinant_total_expand m.rows m rfl hwf h

/-- Closed instance of `c1_determinant_spec`: a concrete 3×3 success
with its cofactor expansion, and a concrete non-square failure. -/
theorem c1_determinant_spec_witness :
    determinant (Matrix.mk 3 3 [1, 2, 3, 4, 5, 6, 7, 8, 10])
      = Except.ok (detVal (Matrix.mk 3 3 [1, 2, 3, 4, 5, 6, 7, 8, 10])) ∧
    determinant (Matrix.mk 2 3 [1, 2, 3, 4, 5, 6]) = Except.error MErr.NotSquare ∧
    detVal (Matrix.mk 3 3 [1, 2, 3, 4, 5, 6, 7, 8, 10])
      = ((List.range 3).map
          (fun col => get_elementD (Matrix.mk 3 3 [1, 2, 3, 4, 5, 6, 7, 8, 10]) 0 col
            * (-1) ^ col
            * detVal (get_sub_matrix (Matrix.mk 3 3 [1, 2, 3, 4, 5, 6, 7, 8, 10]) col))).sum :=
  ⟨((c1_determinant_spec (Matrix.mk 3 3 [1, 2, 3, 4, 5, 6, 7, 8, 10]) (by decide)).2 rfl).1,
   (c1_determinant_spec (Matrix.mk 2 3 [1, 2, 3, 4, 5, 6]) (by decide)).1 rfl,
   ((c1_determinant_spec (Matrix.mk 3 3 [1, 2, 3, 4, 5, 6, 7, 8, 10]) (by decide)).2 rfl).2.2.2
     (by decide) (by decide)⟩

/-! ### The identity matrix and its determinant -/

theorem idData_length (n : Nat) : (idData n).length = n * n := by
  unfold idData
  rw [List.length_flatten, List.map_map]
  have h : (List.range n).map (List.length ∘ idRow n) = (List.range n).map (fun _ => n) := by
    apply List.map_congr_left
    intro r _
    simp [idRow]
  rw [h, List.map_const', List.sum_replicate, List.length_range, smul_eq_mul]

theorem idM_wf (n : Nat) : Mwf (idM n) := idData_length n

theorem idData_succ (k : Nat) :
    idData (k+1) = idRow (k+1) 0 ++ (((List.range k).map Nat.succ).map (idRow (k+1))).flatten := by
  unfold idData
  rw [List.range_succ_eq_map, List.map_cons]
  rfl

theorem idData_get_row0 (k col : Nat) (hcol : col < k+1) :
    (idData (k+1)).get? col = some (if 0 = col then (1 : Int) else 0) := by
  rw [idData_succ, List.get?_eq_getElem?,
    List.getElem?_append_left (by simp [idRow]; omega)]
  unfold idRow
  rw [List.getElem?_map, List.getElem?_range hcol]
  rfl

theorem idM_elemD_row0 (k col : Nat) (hcol : col < k+1) :
    get_elementD (idM (k+1)) 0 col = if 0 = col then (1 : Int) else 0 := by
  unfold get_elementD get_index
  rw [List.getD_eq_getElem?_getD]
  show (idData (k+1))[0 * (k+1) + col]?.getD 0 = _
  rw [Nat.zero_mul, Nat.zero_add]
  have h := idData_get_row0 k col hcol
  rw [List.get?_eq_getElem?] at h
  rw [h]
  rfl

theorem removeRowLoop_zero_drop (cols : Nat) :
    ∀ (c : Nat) (d : List Int), c ≤ d.length → removeRowLoop cols 0 c d = d.drop c := by
  intro c
  induction c with
  | zero => intro d _; rfl
  | succ c ih =>
    intro d h
    have hidx : 0 * cols + c = c := by omega
    show removeRowLoop cols 0 c (d.eraseIdx (0 * cols + c)) = _
    rw [hidx]
    rw [ih (d.eraseIdx c) (by rw [List.length_eraseIdx_of_lt (by omega)]; omega)]
    rw [List.eraseIdx_eq_take_drop_succ, List.drop_left' (by rw [List.length_take]; omega)]

theorem removeColLoop_chunk (cols idx : Nat) (hidx : idx < cols) :
    ∀ (r : Nat) (ch d₂ : List Int), ch.length = cols →
      removeColLoop cols idx (r+1) (ch ++ d₂)
        = ch.eraseIdx idx ++ removeColLoop cols idx r d₂ := by
  intro r
  induction r with
  | zero =>
    intro ch d₂ hch
    show removeColLoop cols idx 0 ((ch ++ d₂).eraseIdx (0 * cols + idx)) = _
    rw [Nat.zero_mul, Nat.zero_add]
    show (ch ++ d₂).eraseIdx idx = _
    rw [List.eraseIdx_append_of_lt_length (by omega)]
    rfl
  | succ r ih =>
    intro ch d₂ hch
    show removeColLoop cols idx (r+1) ((ch ++ d₂).eraseIdx ((r+1) * cols + idx)) = _
    have harith : (r+1) * cols + idx = ch.length + (r * cols + idx) := by
      rw [hch, Nat.succ_mul]
      ring
    rw [harith, List.eraseIdx_append_of_length_le (by omega), Nat.add_sub_cancel_left]
    rw [ih ch (d₂.eraseIdx (r * cols + idx)) hch]
    rfl

theorem removeColLoop_flatten (cols idx : Nat) (hidx : idx < cols) :
    ∀ chunks : List (List Int), (∀ ch ∈ chunks, ch.length = cols) →
      removeColLoop cols idx chunks.length chunks.flatten
        = (chunks.map (fun ch => ch.eraseIdx idx)).flatten := by
  intro chunks
  induction chunks with
  | nil => intro _; rfl
  | cons ch rest ih =>
    intro hw
    show removeColLoop cols idx (rest.length + 1) (ch ++ rest.flatten) = _
    rw [removeColLoop_chunk cols idx hidx rest.length ch rest.flatten (hw ch (by simp))]
    rw [ih (fun ch' h' => hw ch' (List.mem_cons_of_mem _ h'))]
    rfl

theorem idRow_succ_erase (k r : Nat) : (idRow (k+1) (r+1)).eraseIdx 0 = idRow k r := by
  unfold idRow
  rw [List.range_succ_eq_map, List.map_cons]
  show ((List.range k).map Nat.succ).map (fun c => if r + 1 = c then (1 : Int) else 0) = _
  rw [List.map_map]
  apply List.map_congr_left
  intro c _
  simp only [Function.comp]
  by_cases h : r = c
  · subst h
    rw [if_pos rfl, if_pos rfl]
  · rw [if_neg (by omega), if_neg h]

/-- Removing row 0 and column 0 of the (k+1)×(k+1) identity matrix
yields the k×k identity matrix. -/
theorem idM_sub0 (k : Nat) : get_sub_matrix (idM (k+1)) 0 = idM k := by
  have h1 : removeRowLoop (k+1) 0 (k+1) (idData (k+1)) = (idData (k+1)).drop (k+1) := by
    apply removeRowLoop_zero_drop
    rw [idData_length]
    exact Nat.le_mul_of_pos_left _ (by omega)
  have h2 : (idData (k+1)).drop (k+1)
      = (((List.range k).map Nat.succ).map (idRow (k+1))).flatten := by
    rw [idData_succ]
    rw [List.drop_left' (by simp [idRow])]
  have h3 : removeColLoop (k+1) 0 k ((((List.range k).map Nat.succ).map (idRow (k+1))).flatten)
      = ((((List.range k).map Nat.succ).map (idRow (k+1))).map
          (fun ch => ch.eraseIdx 0)).flatten := by
    have h := removeColLoop_flatten (k+1) 0 (by omega)
      (((List.range k).map Nat.succ).map (idRow (k+1)))
      (by
        intro ch hch
        rcases List.mem_map.1 hch with ⟨r, _, rfl⟩
        simp [idRow])
    rwa [show (((List.range k).map Nat.succ).map (idRow (k+1))).length = k by simp] at h
  have h4 : ((((List.range k).map Nat.succ).map (idRow (k+1))).map (fun ch => ch.eraseIdx 0))
      = (List.range k).map (idRow k) := by
    rw [List.map_map, List.map_map]
    apply List.map_congr_left
    intro r _
    simp only [Function.comp]
    exact idRow_succ_erase k r
  show Matrix.mk k k
      (removeColLoop (k+1) 0 k (removeRowLoop (k+1) 0 (k+1) (idData (k+1)))) = idM k
  rw [h1, h2, h3, h4]
  rfl

/-- C7: the determinant of the n×n identity matrix is `1` for every
`n ≥ 1`. -/
theorem c7_det_identity (n : Nat) (h : 1 ≤ n) : determinant (idM n) = Except.ok 1 := by
  induction n with
  | zero => omega
  | succ k ih =>
    by_cases hk1 : k = 0
    · subst hk1
      rfl
    · by_cases hk2 : k = 1
      · subst hk2
        rfl
      · have hwf := idM_wf (k+1)
        have hsq : (idM (k+1)).rows = (idM (k+1)).cols := rfl
        rcases determinant_total_expand (k+1) (idM (k+1)) rfl hwf hsq with ⟨hok, _, _, hmain⟩
        have hr1 : (idM (k+1)).rows ≠ 1 := by show k + 1 ≠ 1; omega
        have hr2 : (idM (k+1)).rows ≠ 2 := by show k + 1 ≠ 2; omega
        have hval := hmain hr1 hr2
        rw [show (idM (k+1)).cols = k + 1 from rfl] at hval
        have hsum : ((List.range (k+1)).map
            (fun col => get_elementD (idM (k+1)) 0 col * (-1) ^ col
              * detVal (get_sub_matrix (idM (k+1)) col))).sum = 1 := by
          rw [List.range_succ_eq_map, List.map_cons, List.sum_cons, List.map_map]
          have h0 : get_elementD (idM (k+1)) 0 0 * (-1) ^ 0
              * detVal (get_sub_matrix (idM (k+1)) 0) = 1 := by
            rw [idM_elemD_row0 k 0 (by omega), idM_sub0]
            have hdk : detVal (idM k) = 1 := by
              unfold detVal
              rw [ih (by omega)]
            rw [hdk, if_pos rfl, pow_zero]
            ring
          rw [h0]
          have htail : ((List.range k).map
              ((fun col => get_elementD (idM (k+1)) 0 col * (-1) ^ col
                * detVal (get_sub_matrix (idM (k+1)) col)) ∘ Nat.succ)).sum = 0 := by
            have hz : (List.range k).map
                ((fun col => get_elementD (idM (k+1)) 0 col * (-1) ^ col
                  * detVal (get_sub_matrix (idM (k+1)) col)) ∘ Nat.succ)
                = (List.range k).map (fun _ => (0 : Int)) := by
              apply List.map_congr_left
              intro c hc
              simp only [Function.comp]
              rw [idM_elemD_row0 k (Nat.succ c) (by
                have := List.mem_range.1 hc
                omega)]
              rw [if_neg (by omega)]
              ring
            rw [hz, List.map_const', List.sum_replicate, smul_zero]
          rw [htail]
          ring
        rw [hok, hval, hsum]

/-- Closed instance of `c7_det_identity` at n = 3. -/
theorem c7_det_identity_witness : determinant (idM 3) = Except.ok 1 :=
  c7_det_identity 3 (by omega)

/-! ### Copy independence (store model) -/

theorem readData_set_other (s : Store) (A : MRef) (r : Nat) (y : List Int)
    (h : r ≠ A.ref) : readData (s.set r y) A = readData s A := by
  unfold readData
  rw [List.getD_eq_getElem?_getD, List.getD_eq_getElem?_getD, List.getElem?_set_ne h]

theorem readData_append_alloc (s : Store) (A : MRef) (x : List Int) (hA : A.ref < s.length) :
    readData (s ++ [x]) A = readData s A := by
  unfold readData
  rw [List.getD_eq_getElem?_getD, List.getD_eq_getElem?_getD, List.getElem?_append_left hA]

/-- C9: `copy_matrix` reproduces rows, cols and data, so the copy
compares equal to the original; and in the store model the copy's
backing list is a freshly allocated cell, so removing rows or columns
of the copy, or assigning its elements, leaves the original's data
unchanged (its `rows`/`cols` attributes, being fields of a different
object, are untouched by construction). -/
theorem c9_copy_independent (s : Store) (A : MRef) (hA : A.ref < s.length) :
    (∀ m : Matrix, copy_matrix m = m ∧ meq (copy_matrix m) m = true) ∧
    ((copyS s A).1.rows = A.rows ∧ (copyS s A).1.cols = A.cols ∧
      readData (copyS s A).2 (copyS s A).1 = readData s A ∧
      readData (copyS s A).2 A = readData s A) ∧
    (∀ i : Nat, readData (remove_rowS (copyS s A).2 (copyS s A).1 i).2 A = readData s A) ∧
    (∀ i : Nat, readData (remove_columnS (copyS s A).2 (copyS s A).1 i).2 A = readData s A) ∧
    (∀ (i : Nat) (v : Int),
      readData (set_elementS (copyS s A).2 (copyS s A).1 i v) A = readData s A) := by
  have hne : s.length ≠ A.ref := by omega
  have hsetAny : ∀ y : List Int, readData ((s ++ [readData s A]).set s.length y) A
      = readData s A := by
    intro y
    rw [readData_set_other _ _ _ _ hne, readData_append_alloc s A _ hA]
  refine ⟨?_, ⟨rfl, rfl, ?_, readData_append_alloc s A _ hA⟩, ?_, ?_, ?_⟩
  · intro m
    refine ⟨rfl, ?_⟩
    show (m.mdata == m.mdata) = true
    simp
  · show readData (s ++ [readData s A]) (MRef.mk A.rows A.cols s.length) = readData s A
    unfold readData
    rw [List.getD_eq_getElem?_getD, List.getElem?_concat_length]
    rfl
  · intro i
    exact hsetAny _
  · intro i
    exact hsetAny _
  · intro i v
    exact hsetAny _

/-- Closed instance of `c9_copy_independent`: removing row 0 of a copy
leaves the original's stored data intact. -/
theorem c9_copy_independent_witness :
    readData (remove_rowS (copyS [[1, 2, 3, 4]] (MRef.mk 2 2 0)).2
        (copyS [[1, 2, 3, 4]] (MRef.mk 2 2 0)).1 0).2 (MRef.mk 2 2 0)
      = readData [[1, 2, 3, 4]] (MRef.mk 2 2 0) :=
  (c9_copy_independent [[1, 2, 3, 4]] (MRef.mk 2 2 0) (by decide)).2.2.1 0

/-- C3 (failing input): with the implemented inner loop, multiplying
the 2×2 identity by `M = [[1,2],[3,4]]` returns the identity again
(every entry is `Σ I(i,k) * I(k,j)`), which is not equal to `M` —
the code contradicts the intended product semantics its docstring
announces. -/
theorem c3_identity_mul_failing_input :
    mul (idM 2) (Factor.matrix (Matrix.mk 2 2 [1, 2, 3, 4])) =
      MulOut.mat (Matrix.mk 2 2 [1, 0, 0, 1]) ∧
    meq (Matrix.mk 2 2 [1, 0, 0, 1]) (Matrix.mk 2 2 [1, 2, 3, 4]) = false ∧
    mne (Matrix.mk 2 2 [1, 0, 0, 1]) (Matrix.mk 2 2 [1, 2, 3, 4]) = true := by
  refine ⟨rfl, rfl, rfl⟩

end PyMatrix
